import Mathlib

/-!
# VersionedSeriesStore — a verification model

The repository slice under study consists of a notebook that exercises an
external versioned time-series storage engine (write / append / update
mutation modes, as-of point-in-time reads, optional pruning).  The engine
itself is not part of the repository; its contract is given by the design
specification.  This file embeds that contract as executable Lean
definitions and proves the specification's testable properties about them.

All definitions below are modelled from the specification of the
`VersionedSeriesStore` component (data model, §3 invariants, §4 operations),
since the storage engine's own source is external to the repository.
-/

namespace VSS

/-- Modelled from the spec: a Row is one timestamped record — a timestamp
plus a mapping from field name to numeric value.  Timestamps are modelled
as naturals (monotonic-sortable instants). -/
structure Row where
  ts : Nat
  vals : List (String × Int)
deriving Repr, DecidableEq

/-- Modelled from the spec: a Version is an immutable snapshot of all rows
stored for a key as of a creation instant.  Versions are totally ordered by
creation time. -/
structure Version where
  created : Nat
  rows : List Row
deriving Repr, DecidableEq

/-- Modelled from the spec: the three mutation modes of a pending write. -/
inductive Mode where
  | write
  | append
  | update
deriving Repr, DecidableEq

/-- Modelled from the spec: the distinct, catchable error kinds of §7. -/
inductive StoreError where
  | EmptyInput
  | OverlapViolation
  | KeyNotFound
  | NoVersionAtTime
  | SchemaMismatch
  | UnknownField
  | StorageUnavailable
deriving Repr, DecidableEq

/-- Modelled from the spec: the store owns all keys; a key owns an ordered
sequence of versions (ascending by creation time). -/
abbrev Store := List (String × List Version)

/-- The timestamps of a row list, in order. -/
def tss (rows : List Row) : List Nat :=
  rows.map Row.ts

/-- Insert a row into a ts-sorted list, keeping it sorted. -/
def insertRow (r : Row) : List Row → List Row
  | [] => [r]
  | x :: xs => if r.ts ≤ x.ts then r :: x :: xs else x :: insertRow r xs

/-- Modelled from the spec: the store sorts a row-set by timestamp before
validating and committing it (insertion sort). -/
def sortRows : List Row → List Row
  | [] => []
  | r :: rs => insertRow r (sortRows rs)

/-- Minimum timestamp of a ts-sorted row list (head). -/
def minTs (rows : List Row) : Nat :=
  ((rows.head?).map Row.ts).getD 0

/-- Maximum timestamp of a ts-sorted row list (last element). -/
def maxTs (rows : List Row) : Nat :=
  ((rows.getLast?).map Row.ts).getD 0

/-- The ordered sequence of versions the store holds for a key
(empty when the key is absent). -/
def versionsOf : Store → String → List Version
  | [], _ => []
  | (k', vs) :: rest, k => if k = k' then vs else versionsOf rest k

/-- Replace (or create) the version sequence held for a key. -/
def setVersions : Store → String → List Version → Store
  | [], k, vs => [(k, vs)]
  | (k', vs') :: rest, k, vs =>
      if k = k' then (k, vs) :: rest else (k', vs') :: setVersions rest k vs

/-- Modelled from the spec: commit phase — a new immutable version is
layered on top of the prior ones for the key. -/
def commitVersion (s : Store) (k : String) (v : Version) : Store :=
  setVersions s k (versionsOf s k ++ [v])

/-- Modelled from the spec: pruning phase — all versions strictly older
than the given creation cutoff are discarded for the key. -/
def pruneOld (s : Store) (k : String) (cutoff : Nat) : Store :=
  setVersions s k ((versionsOf s k).filter (fun v => ! decide (v.created < cutoff)))

/-- Modelled from the spec: committing a new version, then — only after the
new version is in place — pruning the strictly older ones when requested. -/
def commit (s : Store) (k : String) (v : Version) (prunePrev : Bool) : Store :=
  let s1 := commitVersion s k v
  if prunePrev then pruneOld s1 k v.created else s1

/-- Modelled from the spec: `write(key, rows, mode, prune_previous)`.
Validations: non-empty input, duplicate timestamps rejected after sorting,
append strictly after the latest version's span, update fully contained in
the latest version's span; append/update require an existing version.
On success a single new version is committed (then pruning if asked). -/
def write (s : Store) (k : String) (rows : List Row) (mode : Mode)
    (prunePrev : Bool) (now : Nat) : Except StoreError Store :=
  if rows.isEmpty then .error .EmptyInput else
  if ¬ (tss (sortRows rows)).Nodup then .error .OverlapViolation else
  match mode with
  | .write => .ok (commit s k ⟨now, sortRows rows⟩ prunePrev)
  | .append =>
      match (versionsOf s k).getLast? with
      | none => .error .KeyNotFound
      | some latest =>
          if maxTs latest.rows < minTs (sortRows rows) then
            .ok (commit s k ⟨now, latest.rows ++ sortRows rows⟩ prunePrev)
          else .error .OverlapViolation
  | .update =>
      match (versionsOf s k).getLast? with
      | none => .error .KeyNotFound
      | some latest =>
          if minTs latest.rows ≤ minTs (sortRows rows) ∧
              maxTs (sortRows rows) ≤ maxTs latest.rows then
            .ok (commit s k
              ⟨now, latest.rows.filter (fun r => decide (r.ts < minTs (sortRows rows)))
                ++ sortRows rows
                ++ latest.rows.filter (fun r => decide (maxTs (sortRows rows) < r.ts))⟩
              prunePrev)
          else .error .OverlapViolation

/-- The last version in the sequence whose creation time is ≤ t, if any. -/
def lastLE : List Version → Nat → Option Version
  | [], _ => none
  | v :: rest, t =>
      match lastLE rest t with
      | some w => some w
      | none => if v.created ≤ t then some v else none

/-- Modelled from the spec: default resolution rule — no as-of selects the
latest committed version; an as-of t selects the latest version whose
creation time is ≤ t (else `NoVersionAtTime`). -/
def resolveVersion (s : Store) (k : String) (asOf : Option Nat) :
    Except StoreError Version :=
  if (versionsOf s k).isEmpty then .error .KeyNotFound
  else
    match asOf with
    | none =>
        match (versionsOf s k).getLast? with
        | some u => .ok u
        | none => .error .KeyNotFound
    | some t =>
        match lastLE (versionsOf s k) t with
        | some u => .ok u
        | none => .error .NoVersionAtTime

/-- All field names appearing in a row list. -/
def fieldNames (rows : List Row) : List String :=
  (rows.map (fun r => r.vals.map Prod.fst)).flatten

/-- Whether a row's timestamp lies in the inclusive optional window. -/
def inWindow (startT endT : Option Nat) (r : Row) : Bool :=
  (match startT with | none => true | some a => decide (a ≤ r.ts)) &&
  (match endT with | none => true | some b => decide (r.ts ≤ b))

/-- Keep only the requested fields of a row. -/
def projectRow (fs : List String) (r : Row) : Row :=
  ⟨r.ts, r.vals.filter (fun p => fs.contains p.1)⟩

/-- Modelled from the spec: `read(key, as_of, start, end, fields)` —
resolves a committed version, errors `UnknownField` on a requested field
absent from the version, filters rows to the inclusive window (no match
yields an empty result) and projects values to the requested fields. -/
def read (s : Store) (k : String) (asOf : Option Nat)
    (startT endT : Option Nat) (fields : Option (List String)) :
    Except StoreError (List Row) :=
  match resolveVersion s k asOf with
  | .error e => .error e
  | .ok v =>
      match fields with
      | none => .ok (v.rows.filter (inWindow startT endT))
      | some fs =>
          if fs.all (fun f => (fieldNames v.rows).contains f) then
            .ok ((v.rows.filter (inWindow startT endT)).map (projectRow fs))
          else .error .UnknownField

/-- Modelled from the spec: `list_versions(key)` — the ordered
`(version, creation time)` audit sequence. -/
def listVersions (s : Store) (k : String) : List Nat :=
  (versionsOf s k).map Version.created

/-- Well-formedness of one version's rows: sorted ascending by timestamp. -/
def RowsSorted (rows : List Row) : Prop :=
  rows.Pairwise (fun a b => a.ts ≤ b.ts)

/-- Strictly increasing timestamps: sortedness with no duplicates. -/
def RowsStrict (rows : List Row) : Prop :=
  rows.Pairwise (fun a b => a.ts < b.ts)

/-- Store invariant: every committed version holds rows strictly sorted
ascending by timestamp (sorted, no duplicate timestamps). -/
def StoreOk (s : Store) : Prop :=
  ∀ kv ∈ s, ∀ v ∈ kv.2, RowsStrict v.rows

instance (l : List Row) : Decidable (RowsStrict l) :=
  inferInstanceAs (Decidable (l.Pairwise fun a b : Row => a.ts < b.ts))

instance (l : List Row) : Decidable (RowsSorted l) :=
  inferInstanceAs (Decidable (l.Pairwise fun a b : Row => a.ts ≤ b.ts))

instance (s : Store) : Decidable (StoreOk s) :=
  inferInstanceAs (Decidable (∀ kv ∈ s, ∀ v ∈ kv.2, RowsStrict v.rows))

/-! ## Basic lemmas about sorting, row bounds and the key map -/

theorem mem_insertRow {a r : Row} {l : List Row} :
    a ∈ insertRow r l ↔ a = r ∨ a ∈ l := by
  induction l with
  | nil => simp [insertRow]
  | cons x xs ih =>
      by_cases h : r.ts ≤ x.ts
      · simp [insertRow, h]
      · simp only [insertRow, if_neg h, List.mem_cons, ih]
        tauto

theorem insertRow_perm (r : Row) (l : List Row) :
    (insertRow r l).Perm (r :: l) := by
  induction l with
  | nil => simp [insertRow]
  | cons x xs ih =>
      by_cases h : r.ts ≤ x.ts
      · simp [insertRow, h]
      · simp only [insertRow, if_neg h]
        exact (ih.cons x).trans (List.Perm.swap r x xs)

theorem sortRows_perm (l : List Row) : (sortRows l).Perm l := by
  induction l with
  | nil => simp [sortRows]
  | cons r rs ih =>
      exact (insertRow_perm r (sortRows rs)).trans (ih.cons r)

theorem mem_sortRows {a : Row} {l : List Row} : a ∈ sortRows l ↔ a ∈ l :=
  (sortRows_perm l).mem_iff

theorem tss_sortRows_perm (l : List Row) : (tss (sortRows l)).Perm (tss l) :=
  (sortRows_perm l).map Row.ts

theorem nodup_tss_sortRows {l : List Row} :
    (tss (sortRows l)).Nodup ↔ (tss l).Nodup :=
  (tss_sortRows_perm l).nodup_iff

theorem insertRow_sorted {r : Row} {l : List Row} (h : RowsSorted l) :
    RowsSorted (insertRow r l) := by
  induction l with
  | nil => simp [insertRow, RowsSorted]
  | cons x xs ih =>
      rw [RowsSorted, List.pairwise_cons] at h
      by_cases hle : r.ts ≤ x.ts
      · rw [RowsSorted, insertRow, if_pos hle, List.pairwise_cons]
        refine ⟨?_, List.pairwise_cons.2 h⟩
        intro a ha
        rcases List.mem_cons.1 ha with rfl | ha
        · exact hle
        · exact le_trans hle (h.1 a ha)
      · rw [RowsSorted, insertRow, if_neg hle, List.pairwise_cons]
        refine ⟨?_, ih h.2⟩
        intro a ha
        rcases mem_insertRow.1 ha with rfl | ha
        · exact le_of_not_le hle
        · exact h.1 a ha

theorem sortRows_sorted (l : List Row) : RowsSorted (sortRows l) := by
  induction l with
  | nil => simp [sortRows, RowsSorted]
  | cons r rs ih => exact insertRow_sorted ih

theorem minTs_le_of_mem {l : List Row} {r : Row}
    (hs : RowsSorted l) (hr : r ∈ l) : minTs l ≤ r.ts := by
  cases l with
  | nil => cases hr
  | cons x xs =>
      rw [RowsSorted, List.pairwise_cons] at hs
      rcases List.mem_cons.1 hr with rfl | hr
      · simp [minTs]
      · simpa [minTs] using hs.1 r hr

theorem le_maxTs_of_mem {l : List Row}
    (hs : RowsSorted l) : ∀ r ∈ l, r.ts ≤ maxTs l := by
  induction l with
  | nil => intro r hr; cases hr
  | cons x xs ih =>
      rw [RowsSorted, List.pairwise_cons] at hs
      intro r hr
      cases xs with
      | nil =>
          rcases List.mem_cons.1 hr with rfl | hr
          · simp [maxTs]
          · cases hr
      | cons y ys =>
          have hmax : maxTs (x :: y :: ys) = maxTs (y :: ys) := by
            simp [maxTs, List.getLast?_cons_cons]
          rcases List.mem_cons.1 hr with rfl | hr
          · have hy : r.ts ≤ y.ts := hs.1 y (by simp)
            have hyM : y.ts ≤ maxTs (y :: ys) := ih hs.2 y (by simp)
            rw [hmax]; exact le_trans hy hyM
          · rw [hmax]
            exact ih hs.2 r hr

theorem versionsOf_setVersions_self (s : Store) (k : String) (vs : List Version) :
    versionsOf (setVersions s k vs) k = vs := by
  induction s with
  | nil => simp [setVersions, versionsOf]
  | cons kv rest ih =>
      by_cases h : k = kv.1
      · simp [setVersions, versionsOf, h]
      · simp [setVersions, versionsOf, h, ih]

theorem versionsOf_setVersions_ne (s : Store) {k k2 : String}
    (h : k2 ≠ k) (vs : List Version) :
    versionsOf (setVersions s k vs) k2 = versionsOf s k2 := by
  induction s with
  | nil => simp [setVersions, versionsOf, h]
  | cons kv rest ih =>
      by_cases hk : k = kv.1
      · subst hk
        simp [setVersions, versionsOf, h]
      · simp [setVersions, versionsOf, hk, ih]

theorem RowsStrict.sorted {l : List Row} (h : RowsStrict l) : RowsSorted l :=
  h.imp le_of_lt

theorem rowsStrict_of_sorted_nodup {l : List Row}
    (hs : RowsSorted l) (hnd : (tss l).Nodup) : RowsStrict l := by
  have hne : l.Pairwise (fun a b => a.ts ≠ b.ts) := List.pairwise_map.1 hnd
  exact (hs.and hne).imp (fun h => lt_of_le_of_ne h.1 h.2)

theorem minTs_le_maxTs {l : List Row} (hs : RowsSorted l) (hne : l ≠ []) :
    minTs l ≤ maxTs l := by
  cases l with
  | nil => exact absurd rfl hne
  | cons x xs =>
      have : minTs (x :: xs) = x.ts := by simp [minTs]
      rw [this]
      exact le_maxTs_of_mem hs x (by simp)

theorem exists_minTs_mem {l : List Row} (hne : l ≠ []) :
    ∃ r ∈ l, r.ts = minTs l := by
  cases l with
  | nil => exact absurd rfl hne
  | cons x xs => exact ⟨x, by simp, by simp [minTs]⟩

theorem sortRows_ne_nil {l : List Row} (hne : l ≠ []) : sortRows l ≠ [] := by
  intro h
  have hlen := (sortRows_perm l).length_eq
  rw [h] at hlen
  exact hne (List.length_eq_zero.1 hlen.symm)

theorem lastLE_le {vs : List Version} {t : Nat} {u : Version}
    (h : lastLE vs t = some u) : u.created ≤ t := by
  induction vs with
  | nil => simp [lastLE] at h
  | cons v rest ih =>
      rw [lastLE] at h
      cases hr : lastLE rest t with
      | some w =>
          rw [hr] at h
          cases h
          exact ih hr
      | none =>
          rw [hr] at h
          by_cases hc : v.created ≤ t
          · rw [if_pos hc] at h; cases h; exact hc
          · rw [if_neg hc] at h; cases h

theorem lastLE_mem {vs : List Version} {t : Nat} {u : Version}
    (h : lastLE vs t = some u) : u ∈ vs := by
  induction vs with
  | nil => simp [lastLE] at h
  | cons v rest ih =>
      rw [lastLE] at h
      cases hr : lastLE rest t with
      | some w =>
          rw [hr] at h
          cases h
          exact List.mem_cons_of_mem v (ih hr)
      | none =>
          rw [hr] at h
          by_cases hc : v.created ≤ t
          · rw [if_pos hc] at h; cases h; exact List.mem_cons_self _ _
          · rw [if_neg hc] at h; cases h

theorem lastLE_none_of_gt {vs : List Version} {t : Nat}
    (h : ∀ u ∈ vs, t < u.created) : lastLE vs t = none := by
  induction vs with
  | nil => simp [lastLE]
  | cons v rest ih =>
      rw [lastLE, ih (fun u hu => h u (List.mem_cons_of_mem v hu))]
      rw [if_neg (not_le.2 (h v (List.mem_cons_self v rest)))]

theorem lastLE_append_none {xs ys : List Version} {t : Nat}
    (h : lastLE ys t = none) : lastLE (xs ++ ys) t = lastLE xs t := by
  induction xs with
  | nil => simpa using h
  | cons x xs ih => rw [List.cons_append, lastLE, lastLE, ih]

theorem lastLE_concat {xs : List Version} {v : Version} {t : Nat} :
    lastLE (xs ++ [v]) t = if v.created ≤ t then some v else lastLE xs t := by
  induction xs with
  | nil =>
      rw [List.nil_append, lastLE, lastLE]
      by_cases hc : v.created ≤ t <;> simp [hc, lastLE]
  | cons x xs ih =>
      rw [List.cons_append, lastLE, ih]
      by_cases hc : v.created ≤ t
      · simp [hc]
      · simp [hc, lastLE]

/-! ## Lemmas about commit, version resolution and read -/

theorem commit_false (s : Store) (k : String) (v : Version) :
    commit s k v false = commitVersion s k v := rfl

theorem versionsOf_commitVersion_self (s : Store) (k : String) (v : Version) :
    versionsOf (commitVersion s k v) k = versionsOf s k ++ [v] :=
  versionsOf_setVersions_self s k _

theorem versionsOf_commitVersion_ne (s : Store) {k k2 : String}
    (h : k2 ≠ k) (v : Version) :
    versionsOf (commitVersion s k v) k2 = versionsOf s k2 :=
  versionsOf_setVersions_ne s h _

theorem getLast?_mem {α : Type} {l : List α} {a : α}
    (h : l.getLast? = some a) : a ∈ l := by
  obtain ⟨hne, heq⟩ := List.mem_getLast?_eq_getLast (Option.mem_def.2 h)
  rw [heq]
  exact List.getLast_mem hne

theorem resolveVersion_none_of_getLast {s : Store} {k : String} {u : Version}
    (h : (versionsOf s k).getLast? = some u) :
    resolveVersion s k none = .ok u := by
  have hne : (versionsOf s k).isEmpty = false := by
    cases hvs : versionsOf s k with
    | nil => rw [hvs] at h; simp at h
    | cons v vs => simp
  rw [resolveVersion.eq_def, hne]
  simp [h]

theorem resolveVersion_some_of_lastLE {s : Store} {k : String} {t : Nat}
    {u : Version} (hne : versionsOf s k ≠ [])
    (h : lastLE (versionsOf s k) t = some u) :
    resolveVersion s k (some t) = .ok u := by
  have hne' : (versionsOf s k).isEmpty = false := by
    simpa [List.isEmpty_iff] using hne
  rw [resolveVersion.eq_def, hne']
  simp [h]

theorem resolveVersion_mem {s : Store} {k : String} {asOf : Option Nat}
    {u : Version} (h : resolveVersion s k asOf = .ok u) :
    u ∈ versionsOf s k := by
  rw [resolveVersion.eq_def] at h
  split at h
  · cases h
  · split at h
    · split at h
      · rename_i w hl
        cases h
        exact getLast?_mem hl
      · cases h
    · split at h
      · rename_i t w hl
        cases h
        exact lastLE_mem hl
      · cases h

theorem inWindow_none_none (r : Row) : inWindow none none r = true := rfl

theorem read_none_of_resolve {s : Store} {k : String} {asOf : Option Nat}
    {v : Version} (h : resolveVersion s k asOf = .ok v) :
    read s k asOf none none none = .ok v.rows := by
  rw [read.eq_def, h]
  simp [inWindow_none_none]

/-! ## Inversion of a successful write -/

theorem write_ok_inv {s s' : Store} {k : String} {rows : List Row}
    {mode : Mode} {prunePrev : Bool} {now : Nat}
    (h : write s k rows mode prunePrev now = .ok s') :
    rows ≠ [] ∧ (tss (sortRows rows)).Nodup ∧
    ∃ v : Version, v.created = now ∧ s' = commit s k v prunePrev ∧
      (match mode with
       | Mode.write => v.rows = sortRows rows
       | Mode.append => ∃ latest, (versionsOf s k).getLast? = some latest ∧
           maxTs latest.rows < minTs (sortRows rows) ∧
           v.rows = latest.rows ++ sortRows rows
       | Mode.update => ∃ latest, (versionsOf s k).getLast? = some latest ∧
           minTs latest.rows ≤ minTs (sortRows rows) ∧
           maxTs (sortRows rows) ≤ maxTs latest.rows ∧
           v.rows = latest.rows.filter (fun r => decide (r.ts < minTs (sortRows rows)))
             ++ sortRows rows
             ++ latest.rows.filter (fun r => decide (maxTs (sortRows rows) < r.ts))) := by
  rw [write.eq_def] at h
  split at h
  · cases h
  · rename_i he
    have hrne : rows ≠ [] := by
      intro hn; rw [hn] at he; exact he rfl
    split at h
    · cases h
    · rename_i hnd2
      have hnd : (tss (sortRows rows)).Nodup := not_not.1 hnd2
      refine ⟨hrne, hnd, ?_⟩
      split at h
      · cases h
        exact ⟨⟨now, sortRows rows⟩, rfl, rfl, rfl⟩
      · split at h
        · cases h
        · rename_i latest hl
          split at h
          · rename_i hc
            cases h
            exact ⟨⟨now, latest.rows ++ sortRows rows⟩, rfl, rfl,
              latest, hl, hc, rfl⟩
          · cases h
      · split at h
        · cases h
        · rename_i latest hl
          split at h
          · rename_i hc
            cases h
            exact ⟨⟨now, _⟩, rfl, rfl, latest, hl, hc.1, hc.2, rfl⟩
          · cases h

/-! ## Preservation of the sortedness invariant -/

theorem storeOk_versionsOf {s : Store} (hok : StoreOk s) {k : String}
    {v : Version} (hv : v ∈ versionsOf s k) : RowsStrict v.rows := by
  induction s with
  | nil => cases hv
  | cons kv rest ih =>
      obtain ⟨k', vs⟩ := kv
      rw [versionsOf] at hv
      by_cases hk : k = k'
      · rw [if_pos hk] at hv
        exact hok (k', vs) (List.mem_cons_self _ _) v hv
      · rw [if_neg hk] at hv
        exact ih (fun kv hkv => hok kv (List.mem_cons_of_mem _ hkv)) hv

theorem rowsStrict_filter {l : List Row} (h : RowsStrict l) (p : Row → Bool) :
    RowsStrict (l.filter p) :=
  List.Pairwise.sublist (List.filter_sublist l) h

theorem rowsStrict_append {xs ys : List Row} (hx : RowsStrict xs)
    (hy : RowsStrict ys) (hcross : ∀ a ∈ xs, ∀ b ∈ ys, a.ts < b.ts) :
    RowsStrict (xs ++ ys) :=
  List.pairwise_append.2 ⟨hx, hy, hcross⟩

theorem sortRows_strict {rows : List Row}
    (hnd : (tss (sortRows rows)).Nodup) : RowsStrict (sortRows rows) :=
  rowsStrict_of_sorted_nodup (sortRows_sorted rows) hnd

/-- A successful write commits a version whose rows are strictly sorted by
timestamp, provided the prior store satisfies the invariant. -/
theorem write_ok_strict {s s' : Store} {k : String} {rows : List Row}
    {mode : Mode} {prunePrev : Bool} {now : Nat} (hok : StoreOk s)
    (h : write s k rows mode prunePrev now = .ok s') :
    ∃ v : Version, v.created = now ∧ s' = commit s k v prunePrev ∧
      RowsStrict v.rows := by
  obtain ⟨hrne, hnd, v, hcr, hs', hmode⟩ := write_ok_inv h
  refine ⟨v, hcr, hs', ?_⟩
  have hsnd := sortRows_strict hnd
  cases mode with
  | write => rw [hmode]; exact hsnd
  | append =>
      obtain ⟨latest, hl, hc, hrows⟩ := hmode
      have hls : RowsStrict latest.rows :=
        storeOk_versionsOf hok (getLast?_mem hl)
      rw [hrows]
      refine rowsStrict_append hls hsnd ?_
      intro a ha b hb
      have h1 : a.ts ≤ maxTs latest.rows := le_maxTs_of_mem hls.sorted a ha
      have h2 : minTs (sortRows rows) ≤ b.ts :=
        minTs_le_of_mem (sortRows_sorted rows) hb
      omega
  | update =>
      obtain ⟨latest, hl, hc1, hc2, hrows⟩ := hmode
      have hls : RowsStrict latest.rows :=
        storeOk_versionsOf hok (getLast?_mem hl)
      rw [hrows]
      refine rowsStrict_append
        (rowsStrict_append (rowsStrict_filter hls _) hsnd ?_)
        (rowsStrict_filter hls _) ?_
      · intro a ha b hb
        have h1 : a.ts < minTs (sortRows rows) := by
          have := (List.mem_filter.1 ha).2
          exact of_decide_eq_true this
        have h2 : minTs (sortRows rows) ≤ b.ts :=
          minTs_le_of_mem (sortRows_sorted rows) hb
        omega
      · intro a ha b hb
        have h2 : maxTs (sortRows rows) < b.ts := by
          have := (List.mem_filter.1 hb).2
          exact of_decide_eq_true this
        rcases List.mem_append.1 ha with ha1 | ha2
        · have h1 : a.ts < minTs (sortRows rows) := by
            have := (List.mem_filter.1 ha1).2
            exact of_decide_eq_true this
          have h3 : minTs (sortRows rows) ≤ maxTs (sortRows rows) :=
            minTs_le_maxTs (sortRows_sorted rows) (sortRows_ne_nil hrne)
          omega
        · have h1 : a.ts ≤ maxTs (sortRows rows) :=
            le_maxTs_of_mem (sortRows_sorted rows) a ha2
          omega

/-- Filtering a ts-sorted list to the complement of an inclusive band
splits positionally into the prefix strictly below and the suffix strictly
above the band. -/
theorem filter_outside_split {l : List Row} (hs : RowsSorted l) {a b : Nat}
    (hab : a ≤ b) :
    l.filter (fun r => decide (r.ts < a) || decide (b < r.ts))
      = l.filter (fun r => decide (r.ts < a))
        ++ l.filter (fun r => decide (b < r.ts)) := by
  induction l with
  | nil => rfl
  | cons x xs ih =>
      rw [RowsSorted, List.pairwise_cons] at hs
      by_cases h1 : x.ts < a
      · have h2 : ¬ b < x.ts := by omega
        simp [List.filter_cons, h1, h2, ih hs.2]
      · by_cases h2 : b < x.ts
        · have hxs : xs.filter (fun r => decide (r.ts < a)) = [] := by
            rw [List.filter_eq_nil_iff]
            intro r hr
            have hxr : x.ts ≤ r.ts := hs.1 r hr
            simp only [decide_eq_true_eq]
            omega
          simp [List.filter_cons, h1, h2, ih hs.2, hxs]
        · simp [List.filter_cons, h1, h2, ih hs.2]

/-! ## The specification's testable properties -/

/-- C6: For every key k with no prior version, `write(k, rows, append)` and
`write(k, rows, update)` both fail with `KeyNotFound`: append and update
require an existing version to validate against. -/
theorem claim_C6_append_update_require_key (s : Store) (k : String)
    (rows : List Row) (prunePrev : Bool) (now : Nat)
    (hkey : versionsOf s k = []) (hne : rows ≠ []) (hnd : (tss rows).Nodup) :
    write s k rows .append prunePrev now = .error .KeyNotFound ∧
    write s k rows .update prunePrev now = .error .KeyNotFound := by
  have hempty : rows.isEmpty = false := by
    cases rows with
    | nil => exact absurd rfl hne
    | cons r rs => rfl
  have hnd' : (tss (sortRows rows)).Nodup := nodup_tss_sortRows.2 hnd
  constructor <;> rw [write.eq_def] <;> simp [hempty, hnd', hkey]

/-- Witness for C6: on the empty store, appending or updating a
one-row set for a fresh key reports `KeyNotFound`. -/
theorem claim_C6_append_update_require_key_inst :
    write [] "fx.tick.USDJPY" [⟨1, [("bid", 104)]⟩] .append false 5
      = .error .KeyNotFound ∧
    write [] "fx.tick.USDJPY" [⟨1, [("bid", 104)]⟩] .update false 5
      = .error .KeyNotFound :=
  claim_C6_append_update_require_key [] "fx.tick.USDJPY"
    [⟨1, [("bid", 104)]⟩] false 5 rfl (by decide) (by decide)

/-- C10: writing an empty row sequence fails with `EmptyInput`; duplicate
timestamps in the row-set are rejected as a validation error
(`OverlapViolation`); and any successfully committed version holds the
rows sorted strictly ascending by timestamp (the store sorts before
committing). -/
theorem claim_C10_input_validation (s : Store) (k : String) (rows : List Row)
    (mode : Mode) (prunePrev : Bool) (now : Nat) (hok : StoreOk s) :
    write s k [] mode prunePrev now = .error .EmptyInput ∧
    (¬ (tss rows).Nodup →
      write s k rows mode prunePrev now = .error .OverlapViolation) ∧
    (∀ s', write s k rows mode prunePrev now = .ok s' →
      ∃ v : Version, v.created = now ∧ s' = commit s k v prunePrev ∧
        RowsStrict v.rows) := by
  refine ⟨by rw [write.eq_def]; simp, ?_, fun s' h => write_ok_strict hok h⟩
  intro hdup
  have hne : rows ≠ [] := by
    intro h
    rw [h] at hdup
    exact hdup (by simp [tss])
  have hempty : rows.isEmpty = false := by
    cases rows with
    | nil => exact absurd rfl hne
    | cons r rs => rfl
  have hdup' : ¬ (tss (sortRows rows)).Nodup :=
    fun h => hdup (nodup_tss_sortRows.1 h)
  rw [write.eq_def]
  simp [hempty, hdup']

/-- Witness for C10: on the empty store, the empty row-set gives
`EmptyInput`, a two-row set sharing timestamp 3 gives `OverlapViolation`,
and any committed version of a successful write is strictly sorted. -/
theorem claim_C10_input_validation_inst :
    write [] "k" [] Mode.write false 7 = .error .EmptyInput ∧
    (¬ (tss [⟨3, [("bid", 1)]⟩, ⟨3, [("bid", 2)]⟩]).Nodup →
      write [] "k" [⟨3, [("bid", 1)]⟩, ⟨3, [("bid", 2)]⟩] Mode.write false 7
        = .error .OverlapViolation) ∧
    (∀ s', write [] "k" [⟨3, [("bid", 1)]⟩, ⟨3, [("bid", 2)]⟩] Mode.write false 7
        = .ok s' →
      ∃ v : Version, v.created = 7 ∧ s' = commit [] "k" v false ∧
        RowsStrict v.rows) :=
  claim_C10_input_validation [] "k" [⟨3, [("bid", 1)]⟩, ⟨3, [("bid", 2)]⟩]
    Mode.write false 7 (fun kv hkv => absurd hkv (List.not_mem_nil kv))

/-- C3: with an existing latest version, append succeeds exactly when the
new row-set's minimum timestamp is strictly greater than the latest
version's maximum timestamp; otherwise the call fails with
`OverlapViolation` (and, the operation being a pure function returning
only an error, no partial version is created and the store is unchanged). -/
theorem claim_C3_append_overlap (s : Store) (k : String) (rows : List Row)
    (latest : Version) (prunePrev : Bool) (now : Nat)
    (hlatest : (versionsOf s k).getLast? = some latest)
    (hne : rows ≠ []) (hnd : (tss rows).Nodup) :
    ((∃ s', write s k rows .append prunePrev now = .ok s') ↔
      maxTs latest.rows < minTs (sortRows rows)) ∧
    (minTs (sortRows rows) ≤ maxTs latest.rows →
      write s k rows .append prunePrev now = .error .OverlapViolation) := by
  have hempty : rows.isEmpty = false := by
    cases rows with
    | nil => exact absurd rfl hne
    | cons r rs => rfl
  have hnd' : (tss (sortRows rows)).Nodup := nodup_tss_sortRows.2 hnd
  have hw : write s k rows .append prunePrev now =
      (if maxTs latest.rows < minTs (sortRows rows) then
        .ok (commit s k ⟨now, latest.rows ++ sortRows rows⟩ prunePrev)
      else .error .OverlapViolation) := by
    rw [write.eq_def]
    simp [hempty, hnd', hlatest]
  rw [hw]
  constructor
  · by_cases hc : maxTs latest.rows < minTs (sortRows rows) <;> simp [hc]
  · intro hle
    rw [if_neg (by omega)]

/-- Witness for C3: a stored version over timestamps {1,2}; appending a
row at timestamp 2 (minimum 2 ≤ maximum 2) fails with `OverlapViolation`,
and success is equivalent to the strict-ordering condition. -/
theorem claim_C3_append_overlap_inst :
    ((∃ s', write [("k", [⟨0, [⟨1, [("bid", 10)]⟩, ⟨2, [("bid", 11)]⟩]⟩])]
        "k" [⟨2, [("bid", 12)]⟩] .append false 9 = .ok s') ↔
      maxTs [⟨1, [("bid", 10)]⟩, ⟨2, [("bid", 11)]⟩]
        < minTs (sortRows [⟨2, [("bid", 12)]⟩])) ∧
    (minTs (sortRows [⟨2, [("bid", 12)]⟩])
        ≤ maxTs [⟨1, [("bid", 10)]⟩, ⟨2, [("bid", 11)]⟩] →
      write [("k", [⟨0, [⟨1, [("bid", 10)]⟩, ⟨2, [("bid", 11)]⟩]⟩])]
        "k" [⟨2, [("bid", 12)]⟩] .append false 9 = .error .OverlapViolation) :=
  claim_C3_append_overlap _ ("k") _ ⟨0, [⟨1, [("bid", 10)]⟩, ⟨2, [("bid", 11)]⟩]⟩
    false 9 (by decide) (by decide) (by decide)

/-- C5: a successful write-style mutation (without pruning) adds exactly
one new version on top of the prior ones: the prior version list is a
strict prefix of the new one, every earlier version is still present,
other keys are untouched, and every as-of lookup at an instant before the
new version's creation time resolves exactly as before. -/
theorem claim_C5_version_immutability (s s' : Store) (k : String)
    (rows : List Row) (mode : Mode) (now : Nat)
    (h : write s k rows mode false now = .ok s') :
    ∃ v : Version, v.created = now ∧
      versionsOf s' k = versionsOf s k ++ [v] ∧
      (∀ u ∈ versionsOf s k, u ∈ versionsOf s' k) ∧
      (∀ k2, k2 ≠ k → versionsOf s' k2 = versionsOf s k2) ∧
      (∀ t, t < now → lastLE (versionsOf s' k) t = lastLE (versionsOf s k) t) := by
  obtain ⟨-, -, v, hcr, hs', -⟩ := write_ok_inv h
  subst hs'
  rw [commit_false]
  refine ⟨v, hcr, versionsOf_commitVersion_self s k v, ?_, ?_, ?_⟩
  · intro u hu
    rw [versionsOf_commitVersion_self]
    exact List.mem_append.2 (Or.inl hu)
  · intro k2 hk2
    exact versionsOf_commitVersion_ne s hk2 v
  · intro t ht
    rw [versionsOf_commitVersion_self, lastLE_concat, if_neg (by omega)]

/-- Witness for C5: a first write at creation instant 4 on the empty store
commits exactly one version for the key. -/
theorem claim_C5_version_immutability_inst :
    ∃ v : Version, v.created = 4 ∧
      versionsOf (commit [] "k" ⟨4, sortRows [⟨1, [("bid", 7)]⟩]⟩ false) "k"
        = versionsOf ([] : Store) "k" ++ [v] ∧
      (∀ u ∈ versionsOf ([] : Store) "k",
        u ∈ versionsOf (commit [] "k" ⟨4, sortRows [⟨1, [("bid", 7)]⟩]⟩ false) "k") ∧
      (∀ k2, k2 ≠ "k" →
        versionsOf (commit [] "k" ⟨4, sortRows [⟨1, [("bid", 7)]⟩]⟩ false) k2
          = versionsOf ([] : Store) k2) ∧
      (∀ t, t < 4 →
        lastLE (versionsOf (commit [] "k" ⟨4, sortRows [⟨1, [("bid", 7)]⟩]⟩ false) "k") t
          = lastLE (versionsOf ([] : Store) "k") t) :=
  claim_C5_version_immutability [] _ ("k") [⟨1, [("bid", 7)]⟩] Mode.write 4 rfl

/-- C7: a `write`-mode write imposes no ordering constraint: for any
non-empty duplicate-free row-set it succeeds, replaces the key's content
with exactly the (sorted) given rows, yet appends a new version — prior
versions stay in place and earlier as-of lookups are unaffected. -/
theorem claim_C7_write_replaces_content (s : Store) (k : String)
    (rows : List Row) (now : Nat)
    (hne : rows ≠ []) (hnd : (tss rows).Nodup) :
    ∃ s', write s k rows .write false now = .ok s' ∧
      versionsOf s' k = versionsOf s k ++ [⟨now, sortRows rows⟩] ∧
      (sortRows rows).Perm rows ∧
      (∀ t, t < now → lastLE (versionsOf s' k) t = lastLE (versionsOf s k) t) := by
  have hempty : rows.isEmpty = false := by
    cases rows with
    | nil => exact absurd rfl hne
    | cons r rs => rfl
  have hnd' : (tss (sortRows rows)).Nodup := nodup_tss_sortRows.2 hnd
  have hw : write s k rows .write false now =
      .ok (commit s k ⟨now, sortRows rows⟩ false) := by
    rw [write.eq_def]
    simp [hempty, hnd']
  refine ⟨_, hw, ?_, sortRows_perm rows, ?_⟩
  · rw [commit_false, versionsOf_commitVersion_self]
  · intro t ht
    rw [commit_false, versionsOf_commitVersion_self, lastLE_concat,
      if_neg (by show ¬ now ≤ t; omega)]

/-- Witness for C7: a `write`-mode write at instant 9 over a store that
already holds one version keeps the old version and layers the new one. -/
theorem claim_C7_write_replaces_content_inst :
    ∃ s', write [("k", [⟨0, [⟨5, [("bid", 1)]⟩]⟩])] "k" [⟨1, [("bid", 2)]⟩]
        .write false 9 = .ok s' ∧
      versionsOf s' ("k")
        = versionsOf [("k", [⟨0, [⟨5, [("bid", 1)]⟩]⟩])] "k"
            ++ [⟨9, sortRows [⟨1, [("bid", 2)]⟩]⟩] ∧
      (sortRows [⟨1, [("bid", 2)]⟩]).Perm [⟨1, [("bid", 2)]⟩] ∧
      (∀ t, t < 9 →
        lastLE (versionsOf s' ("k")) t
          = lastLE (versionsOf [("k", [⟨0, [⟨5, [("bid", 1)]⟩]⟩])] "k") t) :=
  claim_C7_write_replaces_content _ ("k") [⟨1, [("bid", 2)]⟩] 9
    (by decide) (by decide)

/-- C2: a read with no as-of returns exactly the materialized state of the
most recently created version; in particular, immediately after any
successful write it returns the newly committed version's rows. -/
theorem claim_C2_read_latest (s : Store) (k : String) :
    (∀ v, (versionsOf s k).getLast? = some v →
      read s k none none none none = .ok v.rows) ∧
    (∀ rows mode now s', write s k rows mode false now = .ok s' →
      ∃ v : Version, v.created = now ∧
        (versionsOf s' k).getLast? = some v ∧
        read s' k none none none none = .ok v.rows) := by
  constructor
  · intro v hv
    exact read_none_of_resolve (resolveVersion_none_of_getLast hv)
  · intro rows mode now s' h
    obtain ⟨-, -, v, hcr, hs', -⟩ := write_ok_inv h
    subst hs'
    rw [commit_false]
    have hlast : (versionsOf (commitVersion s k v) k).getLast? = some v := by
      rw [versionsOf_commitVersion_self]
      exact List.getLast?_concat _
    exact ⟨v, hcr, hlast,
      read_none_of_resolve (resolveVersion_none_of_getLast hlast)⟩

/-- C9: ordering of the two phases of a pruning write: the new version is
already committed in the intermediate (pre-prune) state; pruning acts on
that state and discards exactly the strictly older versions; the new
version survives pruning, so the key never passes through a state with
zero valid versions. -/
theorem claim_C9_prune_after_commit (s : Store) (k : String) (v : Version) :
    v ∈ versionsOf (commitVersion s k v) k ∧
    commit s k v true = pruneOld (commitVersion s k v) k v.created ∧
    versionsOf (commit s k v true) k
      = (versionsOf (commitVersion s k v) k).filter
          (fun u => ! decide (u.created < v.created)) ∧
    v ∈ versionsOf (commit s k v true) k ∧
    (∀ u ∈ versionsOf (commit s k v true) k, v.created ≤ u.created) ∧
    (∀ u ∈ versionsOf s k, u.created < v.created →
      u ∉ versionsOf (commit s k v true) k) ∧
    versionsOf (commit s k v true) k ≠ [] := by
  have hmem : v ∈ versionsOf (commitVersion s k v) k := by
    rw [versionsOf_commitVersion_self]
    exact List.mem_append.2 (Or.inr (List.mem_cons_self _ _))
  have hphase : commit s k v true = pruneOld (commitVersion s k v) k v.created := rfl
  have hfilter : versionsOf (commit s k v true) k
      = (versionsOf (commitVersion s k v) k).filter
          (fun u => ! decide (u.created < v.created)) := by
    rw [hphase, pruneOld, versionsOf_setVersions_self]
  have hmem2 : v ∈ versionsOf (commit s k v true) k := by
    rw [hfilter]
    exact List.mem_filter.2 ⟨hmem, by simp⟩
  refine ⟨hmem, hphase, hfilter, hmem2, ?_, ?_, ?_⟩
  · intro u hu
    rw [hfilter] at hu
    have := (List.mem_filter.1 hu).2
    simp only [Bool.not_eq_true', decide_eq_false_iff_not, not_lt] at this
    exact this
  · intro u hu hlt hin
    rw [hfilter] at hin
    have := (List.mem_filter.1 hin).2
    simp only [Bool.not_eq_true', decide_eq_false_iff_not, not_lt] at this
    omega
  · exact List.ne_nil_of_mem hmem2

/-- C1: for an as-of instant t lying at-or-after a version v and strictly
before the next version w (consecutive in creation order), the as-of read
returns exactly v's materialized state — byte-for-byte what a plain read
returned when v was the latest version — and no as-of lookup ever resolves
to a version created after t. -/
theorem claim_C1_asof_between (s : Store) (k : String) (t : Nat)
    (pre post : List Version) (v w : Version)
    (hvs : versionsOf s k = pre ++ v :: w :: post)
    (hord : (versionsOf s k).Pairwise (fun a b => a.created < b.created))
    (hv : v.created ≤ t) (hw : t < w.created) :
    read s k (some t) none none none = .ok v.rows ∧
    read (setVersions s k (pre ++ [v])) k none none none none = .ok v.rows ∧
    (∀ u, lastLE (versionsOf s k) t = some u → u.created ≤ t) := by
  have hpost : ∀ u ∈ w :: post, t < u.created := by
    intro u hu
    rcases List.mem_cons.1 hu with rfl | hu
    · exact hw
    · rw [hvs] at hord
      have h2 := (List.pairwise_append.1 hord).2.1
      rw [List.pairwise_cons] at h2
      have h3 := h2.2
      rw [List.pairwise_cons] at h3
      exact lt_trans hw (h3.1 u hu)
  have hsplit : pre ++ v :: w :: post = (pre ++ [v]) ++ (w :: post) := by simp
  have hlast : lastLE (versionsOf s k) t = some v := by
    rw [hvs, hsplit, lastLE_append_none (lastLE_none_of_gt hpost),
      lastLE_concat, if_pos hv]
  have hne : versionsOf s k ≠ [] := by
    rw [hvs]; simp
  refine ⟨read_none_of_resolve (resolveVersion_some_of_lastLE hne hlast),
    ?_, fun u hu => lastLE_le hu⟩
  have hlast2 : (versionsOf (setVersions s k (pre ++ [v])) k).getLast?
      = some v := by
    rw [versionsOf_setVersions_self]
    exact List.getLast?_concat _
  exact read_none_of_resolve (resolveVersion_none_of_getLast hlast2)

/-- Witness for C1: two versions created at instants 0 and 10; reading as
of t = 5 returns the earlier version's rows, equal to a plain read on the
store truncated to that version. -/
theorem claim_C1_asof_between_inst :
    read [("k", [⟨0, [⟨1, [("bid", 3)]⟩]⟩, ⟨10, [⟨2, [("bid", 4)]⟩]⟩])]
        "k" (some 5) none none none = .ok [⟨1, [("bid", 3)]⟩] ∧
    read (setVersions [("k", [⟨0, [⟨1, [("bid", 3)]⟩]⟩, ⟨10, [⟨2, [("bid", 4)]⟩]⟩])]
        "k" ([] ++ [⟨0, [⟨1, [("bid", 3)]⟩]⟩]))
        "k" none none none none = .ok [⟨1, [("bid", 3)]⟩] ∧
    (∀ u, lastLE (versionsOf
        [("k", [⟨0, [⟨1, [("bid", 3)]⟩]⟩, ⟨10, [⟨2, [("bid", 4)]⟩]⟩])] "k") 5
        = some u → u.created ≤ 5) :=
  claim_C1_asof_between _ ("k") 5 [] [] ⟨0, [⟨1, [("bid", 3)]⟩]⟩
    ⟨10, [⟨2, [("bid", 4)]⟩]⟩ (by decide) (by decide) (by decide) (by decide)

/-- C4: an update whose (sorted) timestamp range is not fully contained in
the latest version's span fails with `OverlapViolation`; a contained
update commits a version that replaces exactly the rows inside the
update's inclusive range with the new sorted rows and keeps every row
outside that range exactly as in the latest version. -/
theorem claim_C4_update_containment (s : Store) (k : String) (rows : List Row)
    (latest : Version) (prunePrev : Bool) (now : Nat)
    (hlatest : (versionsOf s k).getLast? = some latest)
    (hok : StoreOk s) (hne : rows ≠ []) (hnd : (tss rows).Nodup) :
    (¬ (minTs latest.rows ≤ minTs (sortRows rows) ∧
        maxTs (sortRows rows) ≤ maxTs latest.rows) →
      write s k rows .update prunePrev now = .error .OverlapViolation) ∧
    (minTs latest.rows ≤ minTs (sortRows rows) →
     maxTs (sortRows rows) ≤ maxTs latest.rows →
      ∃ s' v, write s k rows .update prunePrev now = .ok s' ∧
        s' = commit s k v prunePrev ∧ v.created = now ∧
        v.rows.filter (fun r => decide (r.ts < minTs (sortRows rows))
            || decide (maxTs (sortRows rows) < r.ts))
          = latest.rows.filter (fun r => decide (r.ts < minTs (sortRows rows))
              || decide (maxTs (sortRows rows) < r.ts)) ∧
        v.rows.filter (fun r => decide (minTs (sortRows rows) ≤ r.ts)
            && decide (r.ts ≤ maxTs (sortRows rows)))
          = sortRows rows) := by
  have hempty : rows.isEmpty = false := by
    cases rows with
    | nil => exact absurd rfl hne
    | cons r rs => rfl
  have hnd' : (tss (sortRows rows)).Nodup := nodup_tss_sortRows.2 hnd
  have hw : write s k rows .update prunePrev now =
      (if minTs latest.rows ≤ minTs (sortRows rows) ∧
          maxTs (sortRows rows) ≤ maxTs latest.rows then
        .ok (commit s k
          ⟨now, latest.rows.filter (fun r => decide (r.ts < minTs (sortRows rows)))
            ++ sortRows rows
            ++ latest.rows.filter (fun r => decide (maxTs (sortRows rows) < r.ts))⟩
          prunePrev)
      else .error .OverlapViolation) := by
    rw [write.eq_def]
    simp [hempty, hnd', hlatest]
  constructor
  · intro hc
    rw [hw, if_neg hc]
  · intro h1 h2
    have hlats : RowsSorted latest.rows :=
      (storeOk_versionsOf hok (getLast?_mem hlatest)).sorted
    have hAB : minTs (sortRows rows) ≤ maxTs (sortRows rows) :=
      minTs_le_maxTs (sortRows_sorted rows) (sortRows_ne_nil hne)
    refine ⟨_, ⟨now, latest.rows.filter (fun r => decide (r.ts < minTs (sortRows rows)))
        ++ sortRows rows
        ++ latest.rows.filter (fun r => decide (maxTs (sortRows rows) < r.ts))⟩,
      by rw [hw, if_pos ⟨h1, h2⟩], rfl, rfl, ?_, ?_⟩
    · have b1 : (latest.rows.filter
            (fun r => decide (r.ts < minTs (sortRows rows)))).filter
            (fun r => decide (r.ts < minTs (sortRows rows))
              || decide (maxTs (sortRows rows) < r.ts))
          = latest.rows.filter (fun r => decide (r.ts < minTs (sortRows rows))) := by
        rw [List.filter_eq_self]
        intro r hr
        have hm := (List.mem_filter.1 hr).2
        rw [hm]
        simp
      have s1 : (sortRows rows).filter
            (fun r => decide (r.ts < minTs (sortRows rows))
              || decide (maxTs (sortRows rows) < r.ts)) = [] := by
        rw [List.filter_eq_nil_iff]
        intro r hr
        have hA := minTs_le_of_mem (sortRows_sorted rows) hr
        have hB := le_maxTs_of_mem (sortRows_sorted rows) r hr
        simp only [Bool.or_eq_true, decide_eq_true_eq, not_or]
        omega
      have a1 : (latest.rows.filter
            (fun r => decide (maxTs (sortRows rows) < r.ts))).filter
            (fun r => decide (r.ts < minTs (sortRows rows))
              || decide (maxTs (sortRows rows) < r.ts))
          = latest.rows.filter (fun r => decide (maxTs (sortRows rows) < r.ts)) := by
        rw [List.filter_eq_self]
        intro r hr
        have hm := (List.mem_filter.1 hr).2
        rw [hm]
        simp
      rw [filter_outside_split hlats hAB]
      simp only [List.filter_append, b1, s1, a1, List.nil_append,
        List.append_nil]
    · have b2 : (latest.rows.filter
            (fun r => decide (r.ts < minTs (sortRows rows)))).filter
            (fun r => decide (minTs (sortRows rows) ≤ r.ts)
              && decide (r.ts ≤ maxTs (sortRows rows))) = [] := by
        rw [List.filter_eq_nil_iff]
        intro r hr
        have hm := (List.mem_filter.1 hr).2
        simp only [decide_eq_true_eq] at hm
        simp only [Bool.and_eq_true, decide_eq_true_eq, not_and]
        omega
      have s2 : (sortRows rows).filter
            (fun r => decide (minTs (sortRows rows) ≤ r.ts)
              && decide (r.ts ≤ maxTs (sortRows rows))) = sortRows rows := by
        rw [List.filter_eq_self]
        intro r hr
        have hA := minTs_le_of_mem (sortRows_sorted rows) hr
        have hB := le_maxTs_of_mem (sortRows_sorted rows) r hr
        simp only [Bool.and_eq_true, decide_eq_true_eq]
        omega
      have a2 : (latest.rows.filter
            (fun r => decide (maxTs (sortRows rows) < r.ts))).filter
            (fun r => decide (minTs (sortRows rows) ≤ r.ts)
              && decide (r.ts ≤ maxTs (sortRows rows))) = [] := by
        rw [List.filter_eq_nil_iff]
        intro r hr
        have hm := (List.mem_filter.1 hr).2
        simp only [decide_eq_true_eq] at hm
        simp only [Bool.and_eq_true, decide_eq_true_eq, not_and]
        omega
      simp only [List.filter_append, b2, s2, a2, List.nil_append,
        List.append_nil]

/-- Witness for C4: latest version over timestamps {1,2,3}; updating the
contained range {2} succeeds and replaces exactly the row at 2, while a
non-contained update (checked by the first conjunct's hypothesis) errors. -/
theorem claim_C4_update_containment_inst :
    (¬ (minTs [⟨1, [("bid", 1)]⟩, ⟨2, [("bid", 2)]⟩, ⟨3, [("bid", 3)]⟩]
          ≤ minTs (sortRows [⟨2, [("bid", 20)]⟩]) ∧
        maxTs (sortRows [⟨2, [("bid", 20)]⟩])
          ≤ maxTs [⟨1, [("bid", 1)]⟩, ⟨2, [("bid", 2)]⟩, ⟨3, [("bid", 3)]⟩]) →
      write [("k", [⟨0, [⟨1, [("bid", 1)]⟩, ⟨2, [("bid", 2)]⟩, ⟨3, [("bid", 3)]⟩]⟩])]
        "k" [⟨2, [("bid", 20)]⟩] .update false 9 = .error .OverlapViolation) ∧
    (minTs [⟨1, [("bid", 1)]⟩, ⟨2, [("bid", 2)]⟩, ⟨3, [("bid", 3)]⟩]
        ≤ minTs (sortRows [⟨2, [("bid", 20)]⟩]) →
     maxTs (sortRows [⟨2, [("bid", 20)]⟩])
        ≤ maxTs [⟨1, [("bid", 1)]⟩, ⟨2, [("bid", 2)]⟩, ⟨3, [("bid", 3)]⟩] →
      ∃ s' v, write [("k", [⟨0, [⟨1, [("bid", 1)]⟩, ⟨2, [("bid", 2)]⟩, ⟨3, [("bid", 3)]⟩]⟩])]
          "k" [⟨2, [("bid", 20)]⟩] .update false 9 = .ok s' ∧
        s' = commit [("k", [⟨0, [⟨1, [("bid", 1)]⟩, ⟨2, [("bid", 2)]⟩, ⟨3, [("bid", 3)]⟩]⟩])]
          "k" v false ∧ v.created = 9 ∧
        v.rows.filter (fun r => decide (r.ts < minTs (sortRows [⟨2, [("bid", 20)]⟩]))
            || decide (maxTs (sortRows [⟨2, [("bid", 20)]⟩]) < r.ts))
          = [⟨1, [("bid", 1)]⟩, ⟨2, [("bid", 2)]⟩, ⟨3, [("bid", 3)]⟩].filter
              (fun r => decide (r.ts < minTs (sortRows [⟨2, [("bid", 20)]⟩]))
                || decide (maxTs (sortRows [⟨2, [("bid", 20)]⟩]) < r.ts)) ∧
        v.rows.filter (fun r => decide (minTs (sortRows [⟨2, [("bid", 20)]⟩]) ≤ r.ts)
            && decide (r.ts ≤ maxTs (sortRows [⟨2, [("bid", 20)]⟩])))
          = sortRows [⟨2, [("bid", 20)]⟩]) :=
  claim_C4_update_containment _ ("k") [⟨2, [("bid", 20)]⟩]
    ⟨0, [⟨1, [("bid", 1)]⟩, ⟨2, [("bid", 2)]⟩, ⟨3, [("bid", 3)]⟩]⟩ false 9
    (by decide) (by decide) (by decide) (by decide)

/-- A read with explicit fields, after version resolution, is the
field-check guard followed by window filtering and projection. -/
theorem read_some_fields_eq {s : Store} {k : String} {asOf : Option Nat}
    {v : Version} (hres : resolveVersion s k asOf = .ok v)
    (startT endT : Option Nat) (fs : List String) :
    read s k asOf startT endT (some fs) =
      (if fs.all (fun f => (fieldNames v.rows).contains f) then
        .ok ((v.rows.filter (inWindow startT endT)).map (projectRow fs))
      else .error .UnknownField) := by
  rw [read.eq_def, hres]

/-- C8: a successful windowed, field-restricted read returns rows sorted
ascending by timestamp, inside the inclusive [a, b] window, holding values
only for requested fields; a resolvable read with known fields always
succeeds (an empty window gives an empty result, not an error); a request
naming an unknown field fails with `UnknownField`. -/
theorem claim_C8_read_shape (s : Store) (k : String) (asOf : Option Nat)
    (a b : Nat) (fs : List String) (hok : StoreOk s) :
    (∀ out, read s k asOf (some a) (some b) (some fs) = .ok out →
      RowsSorted out ∧
      ∀ r ∈ out, (a ≤ r.ts ∧ r.ts ≤ b) ∧ ∀ p ∈ r.vals, p.1 ∈ fs) ∧
    (∀ v, resolveVersion s k asOf = .ok v →
      ((∀ f ∈ fs, f ∈ fieldNames v.rows) →
        ∃ out, read s k asOf (some a) (some b) (some fs) = .ok out) ∧
      ((∃ f ∈ fs, f ∉ fieldNames v.rows) →
        read s k asOf (some a) (some b) (some fs) = .error .UnknownField) ∧
      ((∀ f ∈ fs, f ∈ fieldNames v.rows) →
       (∀ r ∈ v.rows, ¬ (a ≤ r.ts ∧ r.ts ≤ b)) →
        read s k asOf (some a) (some b) (some fs) = .ok [])) := by
  constructor
  · intro out hout
    cases hres : resolveVersion s k asOf with
    | error e => rw [read.eq_def, hres] at hout; cases hout
    | ok v =>
        rw [read_some_fields_eq hres] at hout
        by_cases hall : fs.all (fun f => (fieldNames v.rows).contains f) = true
        · rw [if_pos hall] at hout
          cases hout
          have hstrict : RowsStrict v.rows :=
            storeOk_versionsOf hok (resolveVersion_mem hres)
          constructor
          · have hfs : RowsSorted (v.rows.filter (inWindow (some a) (some b))) :=
              (rowsStrict_filter hstrict _).sorted
            exact List.pairwise_map.2 hfs
          · intro r hr
            obtain ⟨r0, hr0, rfl⟩ := List.mem_map.1 hr
            have hw0 := (List.mem_filter.1 hr0).2
            have hwin : a ≤ r0.ts ∧ r0.ts ≤ b := by
              simpa [inWindow] using hw0
            refine ⟨hwin, ?_⟩
            intro p hp
            have hc := (List.mem_filter.1 hp).2
            simpa using hc
        · rw [if_neg hall] at hout; cases hout
  · intro v hres
    have hconv : (∀ f ∈ fs, f ∈ fieldNames v.rows) →
        fs.all (fun f => (fieldNames v.rows).contains f) = true := by
      intro hfields
      rw [List.all_eq_true]
      intro f hf
      simpa using hfields f hf
    refine ⟨?_, ?_, ?_⟩
    · intro hfields
      rw [read_some_fields_eq hres, if_pos (hconv hfields)]
      exact ⟨_, rfl⟩
    · intro hbad
      obtain ⟨f, hf, hnotin⟩ := hbad
      rw [read_some_fields_eq hres, if_neg ?_]
      intro hall
      rw [List.all_eq_true] at hall
      exact hnotin (by simpa using hall f hf)
    · intro hfields hwin
      have hnil : v.rows.filter (inWindow (some a) (some b)) = [] := by
        rw [List.filter_eq_nil_iff]
        intro r hr
        have hnw := hwin r hr
        simpa [inWindow] using hnw
      rw [read_some_fields_eq hres, if_pos (hconv hfields), hnil]
      rfl

/-- Witness for C8: a one-version store queried over the window [0, 10]
with the known field list consisting of bid. -/
theorem claim_C8_read_shape_inst :
    (∀ out, read [("k", [⟨0, [⟨1, [("bid", 3), ("ask", 4)]⟩]⟩])]
        "k" none (some 0) (some 10) (some ["bid"]) = .ok out →
      RowsSorted out ∧
      ∀ r ∈ out, (0 ≤ r.ts ∧ r.ts ≤ 10) ∧ ∀ p ∈ r.vals, p.1 ∈ ["bid"]) ∧
    (∀ v, resolveVersion [("k", [⟨0, [⟨1, [("bid", 3), ("ask", 4)]⟩]⟩])]
        "k" none = .ok v →
      ((∀ f ∈ ["bid"], f ∈ fieldNames v.rows) →
        ∃ out, read [("k", [⟨0, [⟨1, [("bid", 3), ("ask", 4)]⟩]⟩])]
          "k" none (some 0) (some 10) (some ["bid"]) = .ok out) ∧
      ((∃ f ∈ ["bid"], f ∉ fieldNames v.rows) →
        read [("k", [⟨0, [⟨1, [("bid", 3), ("ask", 4)]⟩]⟩])]
          "k" none (some 0) (some 10) (some ["bid"]) = .error .UnknownField) ∧
      ((∀ f ∈ ["bid"], f ∈ fieldNames v.rows) →
       (∀ r ∈ v.rows, ¬ (0 ≤ r.ts ∧ r.ts ≤ 10)) →
        read [("k", [⟨0, [⟨1, [("bid", 3), ("ask", 4)]⟩]⟩])]
          "k" none (some 0) (some 10) (some ["bid"]) = .ok [])) :=
  claim_C8_read_shape [("k", [⟨0, [⟨1, [("bid", 3), ("ask", 4)]⟩]⟩])]
    "k" none 0 10 ["bid"] (by decide)

end VSS
